import Mathlib

/-!
Shallow embedding of the BIP32-style HD key-derivation core of `kouky/hdwallet`
(`src/lib.rs`).  Machine integers (`u64`, bytes) are modelled as `Nat`; byte
buffers as `List Nat`; fallible Rust `Result` values as the `DResult` type
below, which also records the places where the source calls `.expect(...)` on
a fallible operation (a Rust panic) as a distinct outcome `panicked`.

The external collaborators (the `ring` HMAC-SHA512 primitive and the
`secp256k1` curve library) are not part of the repository; they are modelled
abstractly, faithful to their documented contracts:
  * HMAC-SHA512 is an arbitrary function producing a 64-byte output
    (bundled in the `Crypto` structure together with that length fact);
  * a secp256k1 public key is represented by its discrete logarithm with
    respect to the generator `G`, a scalar in `[0, curveOrder)`; this is
    faithful because the secp256k1 group is cyclic of order `curveOrder`,
    so `scalar ↦ scalar * G` is a bijection from `ZMod curveOrder` to the
    group, turning point addition `P + t*G` into scalar addition mod the
    order, and the compressed 33-byte SEC1 serialization into an arbitrary
    function of the discrete log (also bundled in `Crypto` with its length
    contract).
-/

set_option autoImplicit false

namespace HDWallet

/-- Order of the secp256k1 group
(0xFFFFFFFFFFFFFFFFFFFFFFFFFFFFFFFEBAAEDCE6AF48A03BBFD25E8CD0364141). -/
def curveOrder : Nat :=
  115792089237316195423570985008687907852837564279074904382605163141518161494337

/-- `const HARDENDED_KEY_START_INDEX: u64 = 2_147_483_648; // 2 ** 31` -/
def HARDENDED_KEY_START_INDEX : Nat := 2147483648

/-- `const HARDENDED_KEY_END_INDEX: u64 = 4_294_967_295; // 2 ** 32 - 1` -/
def HARDENDED_KEY_END_INDEX : Nat := 4294967295

/-- Value of a big-endian byte buffer, most significant byte first. -/
def fromBigEndian (bs : List Nat) : Nat :=
  bs.foldl (fun a b => a * 256 + b) 0

/-- `U256::from(v).into_big_endian(&mut buf)` for a buffer of `w` bytes:
fixed-width big-endian encoding, most significant byte first, zero-padded.
(The source's `expect("big_endian encode")` cannot fire for a 32-byte buffer
and a `u64` value.) -/
def natToBigEndian : Nat → Nat → List Nat
  | 0, _ => []
  | w + 1, v => natToBigEndian w (v / 256) ++ [v % 256]

/-- `type ChainCode = Vec<u8>;` -/
abbrev ChainCode : Type := List Nat

/-- `struct ExtendedPrivKey { private_key: SecretKey, chain_code: ChainCode }`.
The `SecretKey` is represented by its scalar value. -/
structure ExtendedPrivKey where
  private_key : Nat
  chain_code : ChainCode
deriving DecidableEq

/-- `struct ExtendedPubKey { public_key: PublicKey, chain_code: ChainCode }`.
The `PublicKey` is represented by its discrete logarithm. -/
structure ExtendedPubKey where
  public_key : Nat
  chain_code : ChainCode
deriving DecidableEq

/-- `enum Error { IndexOutOfRange, InvalidIndex, InvalidKeyMode }` -/
inductive Error where
  | IndexOutOfRange
  | InvalidIndex
  | InvalidKeyMode
deriving DecidableEq

/-- `enum KeyMode { Normal, Hardened }` -/
inductive KeyMode where
  | Normal
  | Hardened
deriving DecidableEq

/-- Outcome of a fallible Rust function: `Ok`, `Err`, or a panic raised by an
`.expect(...)` inside its body. -/
inductive DResult (α : Type) where
  | ok : α → DResult α
  | err : Error → DResult α
  | panicked : DResult α
deriving DecidableEq

/-- `struct ChildPrivKey { index: u64, key_mode: KeyMode, extended_key: ExtendedPrivKey }` -/
structure ChildPrivKey where
  index : Nat
  key_mode : KeyMode
  extended_key : ExtendedPrivKey
deriving DecidableEq

/-- `struct ChildPubKey { index: u64, key_mode: KeyMode, extended_key: ExtendedPubKey }` -/
structure ChildPubKey where
  index : Nat
  key_mode : KeyMode
  extended_key : ExtendedPubKey
deriving DecidableEq

/-- The two external byte-level primitives used by the core, with their
documented contracts: `hmac_sha512` returns a 64-byte output for every key
and message, and the compressed SEC1 serialization of a point is 33 bytes. -/
structure Crypto where
  hmacSha512 : List Nat → List Nat → List Nat
  serializePoint : Nat → List Nat
  hmac_len : ∀ key data, (hmacSha512 key data).length = 64
  ser_len : ∀ p, (serializePoint p).length = 33

/-- `SecretKey::from_slice`: succeeds exactly on 32-byte buffers whose value
is a nonzero scalar below the curve order. -/
def SecretKey.from_slice (bs : List Nat) : Option Nat :=
  if bs.length = 32 ∧ 0 < fromBigEndian bs ∧ fromBigEndian bs < curveOrder then
    some (fromBigEndian bs)
  else
    none

/-- `PublicKey::from_secret_key(&secp, &sk)`: in the discrete-log model the
point `sk * G` has discrete log `sk mod curveOrder`. -/
def PublicKey.from_secret_key (s : Nat) : Nat := s % curveOrder

/-- `SecretKey::add_assign(&tweak)`: replaces the key `s` by
`(s + tweak) mod curveOrder`, failing if the result is the zero scalar
(the tweak fed by the core is always a valid secret key). -/
def scalar_add_assign (s tweak : Nat) : Option Nat :=
  if (s + tweak) % curveOrder = 0 then none
  else some ((s + tweak) % curveOrder)

/-- `PublicKey::add_exp_assign(&secp, &tweak)`: replaces `P` by `P + tweak*G`,
failing if the result is the point at infinity; in the discrete-log model the
new discrete log is `(p + tweak) mod curveOrder` and infinity is the zero
residue. -/
def PublicKey.add_exp_assign (p tweak : Nat) : Option Nat :=
  if (p + tweak) % curveOrder = 0 then none
  else some ((p + tweak) % curveOrder)

/-- Left half of `sig_bytes.split_at(sig_bytes.len() / 2)`. -/
def hmac_left (sig : List Nat) : List Nat := sig.take (sig.length / 2)

/-- Right half of `sig_bytes.split_at(sig_bytes.len() / 2)`. -/
def hmac_right (sig : List Nat) : List Nat := sig.drop (sig.length / 2)

/-- The bytes of the string `"Bitcoin seed"`. -/
def bitcoinSeedKey : List Nat := [66, 105, 116, 99, 111, 105, 110, 32, 115, 101, 101, 100]

/-- The seed bytes built by `generate_master_key`:
`let mut seed = Vec::with_capacity(seed_length); rng.fill(seed.as_mut_slice());`
`Vec::with_capacity` creates a vector of LENGTH 0 (only capacity is reserved),
so `seed.as_mut_slice()` is the empty slice and `rng.fill` writes nothing:
the seed is the empty byte sequence for every requested `seed_length`. -/
def master_seed (seed_length : Nat) : List Nat :=
  let _ := seed_length
  []

/-- `fn generate_master_key(seed_length: usize) -> Result<ExtendedPrivKey, Error>` -/
def generate_master_key (C : Crypto) (seed_length : Nat) : DResult ExtendedPrivKey :=
  let sig_bytes := C.hmacSha512 bitcoinSeedKey (master_seed seed_length)
  match SecretKey.from_slice (hmac_left sig_bytes) with
  | some private_key => .ok ⟨private_key, hmac_right sig_bytes⟩
  | none => .err .InvalidIndex

/-- `fn to_hardened_key_index(index: u64) -> u64` -/
def to_hardened_key_index (index : Nat) : Nat :=
  if index < HARDENDED_KEY_START_INDEX then
    HARDENDED_KEY_START_INDEX + index
  else
    index

/-- The `data` block of `derive_hardended_key`:
`0x00 ∥ private_key (32 bytes) ∥ big_endian(index, 32 bytes)`. -/
def hardened_data (self : ExtendedPrivKey) (index : Nat) : List Nat :=
  [0] ++ natToBigEndian 32 self.private_key ++ natToBigEndian 32 index

/-- `ExtendedPrivKey::derive_hardended_key`. -/
def ExtendedPrivKey.derive_hardended_key (C : Crypto) (self : ExtendedPrivKey)
    (index : Nat) : DResult ChildPrivKey :=
  let index := to_hardened_key_index index
  if HARDENDED_KEY_END_INDEX < index then .err .IndexOutOfRange
  else
    let sig_bytes := C.hmacSha512 self.chain_code (hardened_data self index)
    match SecretKey.from_slice (hmac_left sig_bytes) with
    | some private_key => .ok ⟨index, .Hardened, ⟨private_key, hmac_right sig_bytes⟩⟩
    | none => .err .InvalidIndex

/-- The `data` block of `derive_normal_key`:
`compressed_public_key(parent) ∥ big_endian(index, 32 bytes)`. -/
def normal_data (C : Crypto) (self : ExtendedPrivKey) (index : Nat) : List Nat :=
  C.serializePoint (PublicKey.from_secret_key self.private_key) ++ natToBigEndian 32 index

/-- `ExtendedPrivKey::derive_normal_key`.  The source calls
`private_key.add_assign(&self.private_key[..]).expect("add point")`, so a
failing scalar addition is a panic (`panicked`), not a returned error. -/
def ExtendedPrivKey.derive_normal_key (C : Crypto) (self : ExtendedPrivKey)
    (index : Nat) : DResult ChildPrivKey :=
  if HARDENDED_KEY_START_INDEX ≤ index then .err .IndexOutOfRange
  else
    let sig_bytes := C.hmacSha512 self.chain_code (normal_data C self index)
    match SecretKey.from_slice (hmac_left sig_bytes) with
    | some private_key =>
      match scalar_add_assign private_key self.private_key with
      | some child_key => .ok ⟨index, .Normal, ⟨child_key, hmac_right sig_bytes⟩⟩
      | none => .panicked
    | none => .err .InvalidIndex

/-- `ExtendedPrivKey::derive_private_key`. -/
def ExtendedPrivKey.derive_private_key (C : Crypto) (self : ExtendedPrivKey)
    (key_mode : KeyMode) (index : Nat) : DResult ChildPrivKey :=
  match key_mode with
  | .Hardened => self.derive_hardended_key C index
  | .Normal => self.derive_normal_key C index

/-- The `data` block of `ExtendedPubKey::derive_public_key`:
`serialize(public_key) ∥ big_endian(index, 32 bytes)`. -/
def public_data (C : Crypto) (self : ExtendedPubKey) (index : Nat) : List Nat :=
  C.serializePoint self.public_key ++ natToBigEndian 32 index

/-- `ExtendedPubKey::derive_public_key`. -/
def ExtendedPubKey.derive_public_key (C : Crypto) (self : ExtendedPubKey)
    (index : Nat) : DResult ChildPubKey :=
  if HARDENDED_KEY_START_INDEX ≤ index then .err .IndexOutOfRange
  else
    let sig_bytes := C.hmacSha512 self.chain_code (public_data C self index)
    match SecretKey.from_slice (hmac_left sig_bytes) with
    | some private_key =>
      match PublicKey.add_exp_assign self.public_key private_key with
      | some public_key => .ok ⟨index, .Normal, ⟨public_key, hmac_right sig_bytes⟩⟩
      | none => .err .InvalidIndex
    | none => .err .InvalidIndex

/-- `ExtendedPubKey::from_private_key` (the source wraps the result in `Ok`
unconditionally, so it is modelled as a total function). -/
def ExtendedPubKey.from_private_key (extended_key : ExtendedPrivKey) : ExtendedPubKey :=
  ⟨PublicKey.from_secret_key extended_key.private_key, extended_key.chain_code⟩

/-- `ChildPubKey::from_private_key` (again unconditionally `Ok` in the
source). -/
def ChildPubKey.from_private_key (child_key : ChildPrivKey) : ChildPubKey :=
  ⟨child_key.index, child_key.key_mode, ExtendedPubKey.from_private_key child_key.extended_key⟩

/-- Type invariant of `SecretKey`: a nonzero scalar below the curve order.
Every `ExtendedPrivKey` the Rust code can construct satisfies it. -/
def ExtendedPrivKey.Valid (k : ExtendedPrivKey) : Prop :=
  0 < k.private_key ∧ k.private_key < curveOrder

instance (k : ExtendedPrivKey) : Decidable k.Valid := by
  unfold ExtendedPrivKey.Valid; infer_instance

/-! Concrete instantiations of the external primitives, used to exercise the
derivation functions on explicit inputs.  `stubCrypto` returns a digest of 64
bytes `0x01`, whose left half is a valid scalar; `zeroSumCrypto` returns a
digest whose left half is the scalar `curveOrder - 1`. -/

def stubCrypto : Crypto where
  hmacSha512 := fun _ _ => List.replicate 64 1
  serializePoint := fun _ => List.replicate 33 2
  hmac_len := fun _ _ => by simp
  ser_len := fun _ => by simp

def zeroSumCrypto : Crypto where
  hmacSha512 := fun _ _ => natToBigEndian 32 (curveOrder - 1) ++ List.replicate 32 0
  serializePoint := fun _ => List.replicate 33 2
  hmac_len := fun _ _ =>
    show (natToBigEndian 32 (curveOrder - 1) ++ List.replicate 32 0).length = 64 by decide
  ser_len := fun _ => by simp

/-- The child produced by `derive_normal_key` under `stubCrypto` from the
parent with scalar 1, empty chain code, at index 0. -/
def stubNormalChild : ChildPrivKey :=
  ⟨0, .Normal, ⟨(fromBigEndian (List.replicate 32 1) + 1) % curveOrder, List.replicate 32 1⟩⟩

/-- The child produced by `derive_hardended_key` under `stubCrypto` from the
parent with scalar 1, empty chain code, at logical index 0. -/
def stubHardChild0 : ChildPrivKey :=
  ⟨2147483648, .Hardened, ⟨fromBigEndian (List.replicate 32 1), List.replicate 32 1⟩⟩

/-- The child produced by `derive_hardended_key` under `stubCrypto` from the
parent with scalar 1, empty chain code, at logical index 7. -/
def stubHardChild7 : ChildPrivKey :=
  ⟨2147483655, .Hardened, ⟨fromBigEndian (List.replicate 32 1), List.replicate 32 1⟩⟩

/-! Basic facts about the byte-level helpers. -/

theorem natToBigEndian_length (w : Nat) : ∀ v, (natToBigEndian w v).length = w := by
  induction w with
  | zero => intro v; rfl
  | succ w ih => intro v; simp [natToBigEndian, ih]

theorem hmac_left_spec (C : Crypto) (key data : List Nat) :
    hmac_left (C.hmacSha512 key data) = (C.hmacSha512 key data).take 32 := by
  unfold hmac_left
  rw [C.hmac_len]

theorem hmac_right_spec (C : Crypto) (key data : List Nat) :
    hmac_right (C.hmacSha512 key data) = (C.hmacSha512 key data).drop 32 := by
  unfold hmac_right
  rw [C.hmac_len]

theorem hmac_right_length (C : Crypto) (key data : List Nat) :
    (hmac_right (C.hmacSha512 key data)).length = 32 := by
  rw [hmac_right_spec, List.length_drop, C.hmac_len]

theorem SecretKey.from_slice_some {bs : List Nat} {v : Nat}
    (h : SecretKey.from_slice bs = some v) :
    v = fromBigEndian bs ∧ 0 < v ∧ v < curveOrder ∧ bs.length = 32 := by
  unfold SecretKey.from_slice at h
  split at h
  · rename_i hc
    cases h
    exact ⟨rfl, hc.2.1, hc.2.2, hc.1⟩
  · cases h

theorem scalar_add_assign_some {a b v : Nat} (h : scalar_add_assign a b = some v) :
    v = (a + b) % curveOrder ∧ v ≠ 0 := by
  unfold scalar_add_assign at h
  split at h
  · cases h
  · rename_i hc
    cases h
    exact ⟨rfl, hc⟩

theorem PublicKey.add_exp_assign_some {p t v : Nat}
    (h : PublicKey.add_exp_assign p t = some v) :
    v = (p + t) % curveOrder ∧ v ≠ 0 := by
  unfold PublicKey.add_exp_assign at h
  split at h
  · cases h
  · rename_i hc
    cases h
    exact ⟨rfl, hc⟩

theorem to_hardened_key_index_of_lt {i : Nat} (h : i < HARDENDED_KEY_START_INDEX) :
    to_hardened_key_index i = HARDENDED_KEY_START_INDEX + i := by
  unfold to_hardened_key_index
  rw [if_pos h]

theorem to_hardened_key_index_of_ge {i : Nat} (h : HARDENDED_KEY_START_INDEX ≤ i) :
    to_hardened_key_index i = i := by
  unfold to_hardened_key_index
  rw [if_neg (Nat.not_lt.mpr h)]

theorem to_hardened_key_index_ge (i : Nat) :
    HARDENDED_KEY_START_INDEX ≤ to_hardened_key_index i := by
  unfold to_hardened_key_index
  split
  · exact Nat.le_add_right _ _
  · exact Nat.not_lt.mp (by assumption)

/-- C2: for every extended public key and every index at or above the
hardened threshold 2^31, `derive_public_key` fails with `IndexOutOfRange`
and never produces a child. -/
theorem derive_public_key_hardened_rejected (C : Crypto) (Q : ExtendedPubKey)
    (i : Nat) (h : HARDENDED_KEY_START_INDEX ≤ i) :
    ExtendedPubKey.derive_public_key C Q i = .err .IndexOutOfRange := by
  unfold ExtendedPubKey.derive_public_key
  rw [if_pos h]

theorem derive_public_key_hardened_rejected_witness :
    HARDENDED_KEY_START_INDEX ≤ 2147483648 ∧
      ExtendedPubKey.derive_public_key stubCrypto ⟨1, []⟩ 2147483648
        = .err .IndexOutOfRange :=
  ⟨by decide, derive_public_key_hardened_rejected stubCrypto ⟨1, []⟩ 2147483648 (by decide)⟩

/-- C3: for every parent and every raw index below 2^31, hardened private
derivation behaves identically to hardened derivation at raw index
`2^31 + i`: the engine shifts a logical hardened index up by 2^31. -/
theorem hardened_index_shift (C : Crypto) (P : ExtendedPrivKey) (i : Nat)
    (h : i < HARDENDED_KEY_START_INDEX) :
    ExtendedPrivKey.derive_private_key C P .Hardened i
      = ExtendedPrivKey.derive_private_key C P .Hardened (HARDENDED_KEY_START_INDEX + i) := by
  simp only [ExtendedPrivKey.derive_private_key, ExtendedPrivKey.derive_hardended_key]
  rw [to_hardened_key_index_of_lt h, to_hardened_key_index_of_ge (Nat.le_add_right _ _)]

theorem hardened_index_shift_witness :
    5 < HARDENDED_KEY_START_INDEX ∧
      ExtendedPrivKey.derive_private_key stubCrypto ⟨1, []⟩ .Hardened 5
        = ExtendedPrivKey.derive_private_key stubCrypto ⟨1, []⟩ .Hardened
            (HARDENDED_KEY_START_INDEX + 5) :=
  ⟨by decide, hardened_index_shift stubCrypto ⟨1, []⟩ 5 (by decide)⟩

/-- C5: contrary to the spec, the seed hashed by `generate_master_key` is the
empty byte sequence for every requested `seed_length` (the
`Vec::with_capacity`/`fill` slip), so the result does not depend on
`seed_length` at all. -/
theorem master_seed_always_empty (C : Crypto) (seed_length : Nat) :
    (master_seed seed_length).length = 0 ∧
      generate_master_key C seed_length = generate_master_key C 0 :=
  ⟨rfl, rfl⟩

/-- C6: normal private derivation rejects every index at or above 2^31 with
`IndexOutOfRange`, and hardened private derivation rejects every index whose
normalized value exceeds 2^32 - 1 with `IndexOutOfRange`. -/
theorem derive_private_key_range_rejection (C : Crypto) (P : ExtendedPrivKey) :
    (∀ i, HARDENDED_KEY_START_INDEX ≤ i →
        ExtendedPrivKey.derive_private_key C P .Normal i = .err .IndexOutOfRange) ∧
    (∀ i, HARDENDED_KEY_END_INDEX < to_hardened_key_index i →
        ExtendedPrivKey.derive_private_key C P .Hardened i = .err .IndexOutOfRange) := by
  constructor
  · intro i hi
    simp only [ExtendedPrivKey.derive_private_key, ExtendedPrivKey.derive_normal_key]
    rw [if_pos hi]
  · intro i hi
    simp only [ExtendedPrivKey.derive_private_key, ExtendedPrivKey.derive_hardended_key]
    rw [if_pos hi]

theorem derive_private_key_range_rejection_witness :
    ExtendedPrivKey.derive_private_key stubCrypto ⟨1, []⟩ .Normal 2147483648
        = .err .IndexOutOfRange ∧
      ExtendedPrivKey.derive_private_key stubCrypto ⟨1, []⟩ .Hardened 4294967296
        = .err .IndexOutOfRange :=
  ⟨(derive_private_key_range_rejection stubCrypto ⟨1, []⟩).1 2147483648 (by decide),
   (derive_private_key_range_rejection stubCrypto ⟨1, []⟩).2 4294967296 (by decide)⟩

/-- C8: contrary to the spec, when the left HMAC half is a valid scalar but
the scalar addition with the parent scalar yields zero, `derive_normal_key`
panics (the source unwraps `add_assign` with `.expect("add point")`) instead
of returning an error: shown on the parent with scalar 1 under an HMAC oracle
whose left half is the scalar `curveOrder - 1`. -/
theorem derive_normal_key_zero_sum_panics :
    ExtendedPrivKey.derive_normal_key zeroSumCrypto ⟨1, []⟩ 0 = .panicked := by
  decide

/-- C10: metadata of every successful derivation: a hardened child stores the
normalized index (raw + 2^31 when the raw index was below 2^31), which lies
in [2^31, 2^32 - 1], with key mode Hardened; a normal private child stores
the raw index (below 2^31) with key mode Normal; a public child stores the
raw index with key mode Normal. -/
theorem child_metadata_consistency (C : Crypto) (P : ExtendedPrivKey)
    (Q : ExtendedPubKey) (i : Nat) :
    (∀ ch, ExtendedPrivKey.derive_private_key C P .Hardened i = .ok ch →
        ch.key_mode = .Hardened ∧ ch.index = to_hardened_key_index i ∧
        (i < HARDENDED_KEY_START_INDEX → ch.index = HARDENDED_KEY_START_INDEX + i) ∧
        HARDENDED_KEY_START_INDEX ≤ ch.index ∧ ch.index ≤ HARDENDED_KEY_END_INDEX) ∧
    (∀ ch, ExtendedPrivKey.derive_private_key C P .Normal i = .ok ch →
        ch.key_mode = .Normal ∧ ch.index = i ∧ i < HARDENDED_KEY_START_INDEX) ∧
    (∀ ch, ExtendedPubKey.derive_public_key C Q i = .ok ch →
        ch.key_mode = .Normal ∧ ch.index = i ∧ i < HARDENDED_KEY_START_INDEX) := by
  refine ⟨?_, ?_, ?_⟩
  · intro ch h
    simp only [ExtendedPrivKey.derive_private_key, ExtendedPrivKey.derive_hardended_key] at h
    split at h
    · exact DResult.noConfusion h
    · rename_i hle
      split at h
      · cases h
        refine ⟨rfl, rfl, fun hlt => to_hardened_key_index_of_lt hlt, ?_, ?_⟩
        · exact to_hardened_key_index_ge i
        · exact Nat.not_lt.mp hle
      · exact DResult.noConfusion h
  · intro ch h
    simp only [ExtendedPrivKey.derive_private_key, ExtendedPrivKey.derive_normal_key] at h
    split at h
    · exact DResult.noConfusion h
    · rename_i hlt
      split at h
      · split at h
        · cases h
          exact ⟨rfl, rfl, Nat.not_le.mp hlt⟩
        · exact DResult.noConfusion h
      · exact DResult.noConfusion h
  · intro ch h
    simp only [ExtendedPubKey.derive_public_key] at h
    split at h
    · exact DResult.noConfusion h
    · rename_i hlt
      split at h
      · split at h
        · cases h
          exact ⟨rfl, rfl, Nat.not_le.mp hlt⟩
        · exact DResult.noConfusion h
      · exact DResult.noConfusion h

/-- Success characterization of `derive_normal_key`: the index is in the
normal range, the left HMAC half parses as a scalar `k`, the tweaked sum is
nonzero, and the child is built from the sum and the right HMAC half. -/
theorem derive_normal_key_ok {C : Crypto} {P : ExtendedPrivKey} {i : Nat}
    {ch : ChildPrivKey} (h : ExtendedPrivKey.derive_normal_key C P i = .ok ch) :
    i < HARDENDED_KEY_START_INDEX ∧
    ∃ k, SecretKey.from_slice (hmac_left (C.hmacSha512 P.chain_code (normal_data C P i)))
          = some k ∧
      (k + P.private_key) % curveOrder ≠ 0 ∧
      ch = ⟨i, .Normal, ⟨(k + P.private_key) % curveOrder,
        hmac_right (C.hmacSha512 P.chain_code (normal_data C P i))⟩⟩ := by
  simp only [ExtendedPrivKey.derive_normal_key] at h
  split at h
  · exact DResult.noConfusion h
  · rename_i hlt
    split at h
    · rename_i k hk
      split at h
      · rename_i ck hck
        cases h
        obtain ⟨hceq, hcnz⟩ := scalar_add_assign_some hck
        subst hceq
        exact ⟨Nat.not_le.mp hlt, k, hk, hcnz, rfl⟩
      · exact DResult.noConfusion h
    · exact DResult.noConfusion h

/-- Success characterization of `derive_hardended_key`: the normalized index
is in range, the left HMAC half parses as a scalar which becomes the child
scalar directly, and the right HMAC half becomes the chain code. -/
theorem derive_hardended_key_ok {C : Crypto} {P : ExtendedPrivKey} {i : Nat}
    {ch : ChildPrivKey} (h : ExtendedPrivKey.derive_hardended_key C P i = .ok ch) :
    to_hardened_key_index i ≤ HARDENDED_KEY_END_INDEX ∧
    ∃ k, SecretKey.from_slice (hmac_left (C.hmacSha512 P.chain_code
          (hardened_data P (to_hardened_key_index i)))) = some k ∧
      ch = ⟨to_hardened_key_index i, .Hardened, ⟨k,
        hmac_right (C.hmacSha512 P.chain_code
          (hardened_data P (to_hardened_key_index i)))⟩⟩ := by
  simp only [ExtendedPrivKey.derive_hardended_key] at h
  split at h
  · exact DResult.noConfusion h
  · rename_i hle
    split at h
    · rename_i k hk
      cases h
      exact ⟨Nat.not_lt.mp hle, k, hk, rfl⟩
    · exact DResult.noConfusion h

/-- Success characterization of `derive_public_key`: the index is in the
normal range, the left HMAC half parses as a scalar `k`, the point tweak is
not the point at infinity, and the child is built from the tweaked point and
the right HMAC half. -/
theorem derive_public_key_ok {C : Crypto} {Q : ExtendedPubKey} {i : Nat}
    {ch : ChildPubKey} (h : ExtendedPubKey.derive_public_key C Q i = .ok ch) :
    i < HARDENDED_KEY_START_INDEX ∧
    ∃ k, SecretKey.from_slice (hmac_left (C.hmacSha512 Q.chain_code (public_data C Q i)))
          = some k ∧
      (Q.public_key + k) % curveOrder ≠ 0 ∧
      ch = ⟨i, .Normal, ⟨(Q.public_key + k) % curveOrder,
        hmac_right (C.hmacSha512 Q.chain_code (public_data C Q i))⟩⟩ := by
  simp only [ExtendedPubKey.derive_public_key] at h
  split at h
  · exact DResult.noConfusion h
  · rename_i hlt
    split at h
    · rename_i k hk
      split at h
      · rename_i p hp
        cases h
        obtain ⟨hpeq, hpnz⟩ := PublicKey.add_exp_assign_some hp
        subst hpeq
        exact ⟨Nat.not_le.mp hlt, k, hk, hpnz, rfl⟩
      · exact DResult.noConfusion h
    · exact DResult.noConfusion h

theorem child_metadata_consistency_witness :
    ExtendedPrivKey.derive_private_key stubCrypto ⟨1, []⟩ .Hardened 7 = .ok stubHardChild7 ∧
      (stubHardChild7.key_mode = .Hardened ∧
        stubHardChild7.index = to_hardened_key_index 7 ∧
        (7 < HARDENDED_KEY_START_INDEX →
          stubHardChild7.index = HARDENDED_KEY_START_INDEX + 7) ∧
        HARDENDED_KEY_START_INDEX ≤ stubHardChild7.index ∧
        stubHardChild7.index ≤ HARDENDED_KEY_END_INDEX) :=
  ⟨by decide,
   (child_metadata_consistency stubCrypto ⟨1, []⟩ ⟨1, []⟩ 7).1 stubHardChild7 (by decide)⟩

/-- C4: for every parent and every normal index on which normal private
derivation succeeds, the child scalar is the left 32 HMAC bytes read as a
scalar plus the parent scalar, modulo the curve order, and that sum is never
zero in a produced child. -/
theorem normal_child_scalar_tweak (C : Crypto) (P : ExtendedPrivKey) (i : Nat)
    (ch : ChildPrivKey) (h : ExtendedPrivKey.derive_private_key C P .Normal i = .ok ch) :
    ch.extended_key.private_key
      = (fromBigEndian ((C.hmacSha512 P.chain_code (normal_data C P i)).take 32)
          + P.private_key) % curveOrder ∧
    ch.extended_key.private_key ≠ 0 := by
  obtain ⟨hi, k, hk, hnz, hch⟩ :=
    derive_normal_key_ok (h : ExtendedPrivKey.derive_normal_key C P i = .ok ch)
  obtain ⟨hkeq, _, _, _⟩ := SecretKey.from_slice_some hk
  subst hch
  constructor
  · show (k + P.private_key) % curveOrder = _
    rw [← hmac_left_spec C P.chain_code (normal_data C P i), ← hkeq]
  · exact hnz

theorem normal_child_scalar_tweak_witness :
    ExtendedPrivKey.derive_private_key stubCrypto ⟨1, []⟩ .Normal 0 = .ok stubNormalChild ∧
      (stubNormalChild.extended_key.private_key
          = (fromBigEndian ((stubCrypto.hmacSha512 ([] : List Nat)
              (normal_data stubCrypto ⟨1, []⟩ 0)).take 32) + 1) % curveOrder ∧
        stubNormalChild.extended_key.private_key ≠ 0) :=
  ⟨by decide, normal_child_scalar_tweak stubCrypto ⟨1, []⟩ 0 stubNormalChild (by decide)⟩

/-- C7: for every parent and every hardened derivation that succeeds, the
HMAC message is exactly `0x00 ∥ parent scalar (32 bytes, big endian) ∥
normalized index (32 bytes, big endian)`, 65 bytes in all, keyed by the
parent chain code; the left 32 bytes of the digest become the child scalar
directly (a valid nonzero scalar below the order) and the right 32 bytes
become the child chain code. -/
theorem hardened_derivation_structure (C : Crypto) (P : ExtendedPrivKey) (i : Nat)
    (ch : ChildPrivKey) (h : ExtendedPrivKey.derive_private_key C P .Hardened i = .ok ch) :
    hardened_data P (to_hardened_key_index i)
        = [0] ++ natToBigEndian 32 P.private_key
            ++ natToBigEndian 32 (to_hardened_key_index i) ∧
    (hardened_data P (to_hardened_key_index i)).length = 65 ∧
    ch.extended_key.private_key
      = fromBigEndian ((C.hmacSha512 P.chain_code
          (hardened_data P (to_hardened_key_index i))).take 32) ∧
    0 < ch.extended_key.private_key ∧ ch.extended_key.private_key < curveOrder ∧
    ch.extended_key.chain_code
      = (C.hmacSha512 P.chain_code (hardened_data P (to_hardened_key_index i))).drop 32 := by
  obtain ⟨hle, k, hk, hch⟩ :=
    derive_hardended_key_ok (h : ExtendedPrivKey.derive_hardended_key C P i = .ok ch)
  obtain ⟨hkeq, hkpos, hklt, _⟩ := SecretKey.from_slice_some hk
  subst hch
  refine ⟨rfl, ?_, ?_, hkpos, hklt, hmac_right_spec C _ _⟩
  · simp [hardened_data, natToBigEndian_length]
  · show k = _
    rw [hkeq, hmac_left_spec C P.chain_code (hardened_data P (to_hardened_key_index i))]

theorem hardened_derivation_structure_witness :
    ExtendedPrivKey.derive_private_key stubCrypto ⟨1, []⟩ .Hardened 0 = .ok stubHardChild0 ∧
      (hardened_data ⟨1, []⟩ (to_hardened_key_index 0)
          = [0] ++ natToBigEndian 32 (1 : Nat)
              ++ natToBigEndian 32 (to_hardened_key_index 0) ∧
        (hardened_data ⟨1, []⟩ (to_hardened_key_index 0)).length = 65 ∧
        stubHardChild0.extended_key.private_key
          = fromBigEndian ((stubCrypto.hmacSha512 ([] : List Nat)
              (hardened_data ⟨1, []⟩ (to_hardened_key_index 0))).take 32) ∧
        0 < stubHardChild0.extended_key.private_key ∧
        stubHardChild0.extended_key.private_key < curveOrder ∧
        stubHardChild0.extended_key.chain_code
          = (stubCrypto.hmacSha512 ([] : List Nat)
              (hardened_data ⟨1, []⟩ (to_hardened_key_index 0))).drop 32) :=
  ⟨by decide, hardened_derivation_structure stubCrypto ⟨1, []⟩ 0 stubHardChild0 (by decide)⟩

/-- C9: every extended key produced by `generate_master_key` or by any of the
three derivation functions has a chain code of exactly 32 bytes, namely the
right half of the 64-byte HMAC-SHA512 digest of that operation. -/
theorem chain_code_always_32_bytes (C : Crypto) (P : ExtendedPrivKey)
    (Q : ExtendedPubKey) (len i : Nat) :
    (∀ ek, generate_master_key C len = .ok ek →
        ek.chain_code.length = 32 ∧
        ek.chain_code = (C.hmacSha512 bitcoinSeedKey (master_seed len)).drop 32) ∧
    (∀ ch, ExtendedPrivKey.derive_private_key C P .Normal i = .ok ch →
        ch.extended_key.chain_code.length = 32 ∧
        ch.extended_key.chain_code
          = (C.hmacSha512 P.chain_code (normal_data C P i)).drop 32) ∧
    (∀ ch, ExtendedPrivKey.derive_private_key C P .Hardened i = .ok ch →
        ch.extended_key.chain_code.length = 32 ∧
        ch.extended_key.chain_code
          = (C.hmacSha512 P.chain_code (hardened_data P (to_hardened_key_index i))).drop 32) ∧
    (∀ ch, ExtendedPubKey.derive_public_key C Q i = .ok ch →
        ch.extended_key.chain_code.length = 32 ∧
        ch.extended_key.chain_code
          = (C.hmacSha512 Q.chain_code (public_data C Q i)).drop 32) := by
  refine ⟨?_, ?_, ?_, ?_⟩
  · intro ek h
    simp only [generate_master_key] at h
    split at h
    · cases h
      exact ⟨hmac_right_length C _ _, hmac_right_spec C _ _⟩
    · exact DResult.noConfusion h
  · intro ch h
    obtain ⟨_, k, _, _, hch⟩ :=
      derive_normal_key_ok (h : ExtendedPrivKey.derive_normal_key C P i = .ok ch)
    subst hch
    exact ⟨hmac_right_length C _ _, hmac_right_spec C _ _⟩
  · intro ch h
    obtain ⟨_, k, _, hch⟩ :=
      derive_hardended_key_ok (h : ExtendedPrivKey.derive_hardended_key C P i = .ok ch)
    subst hch
    exact ⟨hmac_right_length C _ _, hmac_right_spec C _ _⟩
  · intro ch h
    obtain ⟨_, k, _, _, hch⟩ := derive_public_key_ok h
    subst hch
    exact ⟨hmac_right_length C _ _, hmac_right_spec C _ _⟩

theorem chain_code_always_32_bytes_witness :
    ExtendedPrivKey.derive_private_key stubCrypto ⟨1, []⟩ .Normal 0 = .ok stubNormalChild ∧
      (stubNormalChild.extended_key.chain_code.length = 32 ∧
        stubNormalChild.extended_key.chain_code
          = (stubCrypto.hmacSha512 ([] : List Nat)
              (normal_data stubCrypto ⟨1, []⟩ 0)).drop 32) :=
  ⟨by decide,
   (chain_code_always_32_bytes stubCrypto ⟨1, []⟩ ⟨1, []⟩ 0 0).2.1 stubNormalChild (by decide)⟩

/-- C1: for every valid parent private key and every normal index on which
private derivation succeeds, deriving the public child directly from the
parent's public projection at the same index succeeds and returns exactly the
public projection of the private child: the same index, mode, public point
and chain code. -/
theorem cross_derivation_equivalence (C : Crypto) (P : ExtendedPrivKey) (i : Nat)
    (ch : ChildPrivKey) (_hP : P.Valid)
    (h : ExtendedPrivKey.derive_private_key C P .Normal i = .ok ch) :
    ExtendedPubKey.derive_public_key C (ExtendedPubKey.from_private_key P) i
      = .ok (ChildPubKey.from_private_key ch) := by
  obtain ⟨hi, k, hk, hnz, hch⟩ :=
    derive_normal_key_ok (h : ExtendedPrivKey.derive_normal_key C P i = .ok ch)
  subst hch
  have hdata : public_data C (ExtendedPubKey.from_private_key P) i = normal_data C P i := rfl
  have hcc : (ExtendedPubKey.from_private_key P).chain_code = P.chain_code := rfl
  have hadd : PublicKey.add_exp_assign (ExtendedPubKey.from_private_key P).public_key k
      = some ((k + P.private_key) % curveOrder) := by
    have hmod : ((ExtendedPubKey.from_private_key P).public_key + k) % curveOrder
        = (k + P.private_key) % curveOrder := by
      show (P.private_key % curveOrder + k) % curveOrder = _
      rw [Nat.mod_add_mod, Nat.add_comm]
    unfold PublicKey.add_exp_assign
    rw [hmod, if_neg hnz]
  simp only [ExtendedPubKey.derive_public_key, hdata, hcc]
  rw [if_neg (Nat.not_le.mpr hi)]
  split
  · rename_i pk hpk
    rw [hk] at hpk
    cases hpk
    split
    · rename_i pub hpub
      rw [hadd] at hpub
      cases hpub
      show DResult.ok _ = _
      simp only [ChildPubKey.from_private_key, ExtendedPubKey.from_private_key,
        PublicKey.from_secret_key]
      rw [Nat.mod_mod_of_dvd _ dvd_rfl]
    · rename_i hpub
      rw [hadd] at hpub
      exact Option.noConfusion hpub
  · rename_i hnone
    rw [hk] at hnone
    exact Option.noConfusion hnone

theorem cross_derivation_equivalence_witness :
    (⟨1, []⟩ : ExtendedPrivKey).Valid ∧
      ExtendedPrivKey.derive_private_key stubCrypto ⟨1, []⟩ .Normal 0 = .ok stubNormalChild ∧
      ExtendedPubKey.derive_public_key stubCrypto
          (ExtendedPubKey.from_private_key ⟨1, []⟩) 0
        = .ok (ChildPubKey.from_private_key stubNormalChild) :=
  ⟨by decide, by decide,
   cross_derivation_equivalence stubCrypto ⟨1, []⟩ 0 stubNormalChild (by decide) (by decide)⟩

end HDWallet
